import Mathlib

/-!
Verification of the Schwaemm256-256 AEAD implementation (Sparkle permutation
plus duplex-sponge construction) from `src/native/schwaemm_nif/`.

All 32-bit machine words are modelled as `Nat` with explicit reduction
modulo `2^32` where the Rust code wraps; bytes are `Nat` values below 256.
`schwaemm_v2.rs` keeps the state as two parallel 8-word arrays `x` and `y`;
we model it as a 16-field structure `SparkleState` with fields
`x0..x7, y0..y7`.  The flat-array representation used by `sparkle.rs` and
`schwaemm.rs` corresponds through the interleaving `flat[2i] = x i`,
`flat[2i+1] = y i`, which is exactly the split performed by
`linear_layer` and `state_to_flat` in the source.
-/

set_option maxRecDepth 100000

namespace GitVeil

/-- 2^32, the u32 wrap modulus. -/
def U32 : Nat := 4294967296

/-- `u32::rotate_right` for a word `x < 2^32`. -/
def rotr (x n : Nat) : Nat := (x >>> n) ||| ((x <<< (32 - n)) % U32)

/-- `u32::wrapping_add`. -/
def wadd (a b : Nat) : Nat := (a + b) % U32

/-- `u32::from_le_bytes` on four byte values. -/
def toWord (b0 b1 b2 b3 : Nat) : Nat := b0 + 256 * b1 + 65536 * b2 + 16777216 * b3

/-- `u32::to_le_bytes`: the four little-endian bytes of a word. -/
def wordBytes (w : Nat) : List Nat := [w % 256, w / 256 % 256, w / 65536 % 256, w / 16777216 % 256]

/-- `bytes_to_words_le` from `schwaemm_v2.rs`: chunk into 4-byte groups
(little endian), zero-filling a trailing partial chunk. -/
def bytesToWordsLE : List Nat → List Nat
  | b0 :: b1 :: b2 :: b3 :: rest => toWord b0 b1 b2 b3 :: bytesToWordsLE rest
  | [b0, b1, b2] => [toWord b0 b1 b2 0]
  | [b0, b1] => [toWord b0 b1 0 0]
  | [b0] => [toWord b0 0 0 0]
  | [] => []

/-- Serialize a word list to little-endian bytes. -/
def wordsBytes : List Nat → List Nat
  | [] => []
  | w :: ws => wordBytes w ++ wordsBytes ws

/-- `words_to_bytes_le` writing into an output buffer of length `outLen`
(the buffer is never longer than `4 * words.length` at any call site). -/
def wordsToBytesLE (ws : List Nat) (outLen : Nat) : List Nat := (wordsBytes ws).take outLen

/-- The Sparkle state of `schwaemm_v2.rs`: two parallel arrays of eight
32-bit words. -/
structure SparkleState where
  x0 : Nat
  x1 : Nat
  x2 : Nat
  x3 : Nat
  x4 : Nat
  x5 : Nat
  x6 : Nat
  x7 : Nat
  y0 : Nat
  y1 : Nat
  y2 : Nat
  y3 : Nat
  y4 : Nat
  y5 : Nat
  y6 : Nat
  y7 : Nat
  deriving Repr, DecidableEq

/-- The `RCON` table of `sparkle.rs` (16 entries, the second half repeating
the first; it is only ever indexed modulo 8). -/
def rconTable : List Nat :=
  [0xB7E15162, 0xBF715880, 0x38B4DA56, 0x324E7738,
   0xBB1185EB, 0x4F7C7B57, 0xCFBFA1C8, 0xC2B3293D,
   0xB7E15162, 0xBF715880, 0x38B4DA56, 0x324E7738,
   0xBB1185EB, 0x4F7C7B57, 0xCFBFA1C8, 0xC2B3293D]

/-- `RCON[i % 8]` as used by the step function and the Alzette layer. -/
def rcon (i : Nat) : Nat := rconTable.getD (i % 8) 0

/-- The Alzette ARX box of `sparkle.rs`: four rounds of
add / xor-rotate / constant-xor. -/
def alzette (x y c : Nat) : Nat × Nat :=
  let x1 := wadd x (rotr y 31)
  let y1 := y ^^^ rotr x1 24
  let x1 := x1 ^^^ c
  let x2 := wadd x1 (rotr y1 17)
  let y2 := y1 ^^^ rotr x2 17
  let x2 := x2 ^^^ c
  let x3 := wadd x2 y2
  let y3 := y2 ^^^ rotr x3 31
  let x3 := x3 ^^^ c
  let x4 := wadd x3 (rotr y3 24)
  let y4 := y3 ^^^ rotr x4 16
  let x4 := x4 ^^^ c
  (x4, y4)

/-- The `ell` diffusion function of `sparkle.rs`. -/
def ell (x : Nat) : Nat := rotr (x ^^^ ((x <<< 16) % U32)) 16

/-- Step-counter injection of `sparkle_generic`: XOR `RCON[step % 8]` into
`y[0]` (flat index 1) and the step index into `y[1]` (flat index 3). -/
def arcStep (s : SparkleState) (step : Nat) : SparkleState :=
  { s with y0 := s.y0 ^^^ rcon step, y1 := s.y1 ^^^ (step % U32) }

/-- Apply the Alzette box to all eight branches with `RCON[i % 8]`. -/
def alzetteAll (s : SparkleState) : SparkleState :=
  { x0 := (alzette s.x0 s.y0 (rcon 0)).1, y0 := (alzette s.x0 s.y0 (rcon 0)).2
    x1 := (alzette s.x1 s.y1 (rcon 1)).1, y1 := (alzette s.x1 s.y1 (rcon 1)).2
    x2 := (alzette s.x2 s.y2 (rcon 2)).1, y2 := (alzette s.x2 s.y2 (rcon 2)).2
    x3 := (alzette s.x3 s.y3 (rcon 3)).1, y3 := (alzette s.x3 s.y3 (rcon 3)).2
    x4 := (alzette s.x4 s.y4 (rcon 4)).1, y4 := (alzette s.x4 s.y4 (rcon 4)).2
    x5 := (alzette s.x5 s.y5 (rcon 5)).1, y5 := (alzette s.x5 s.y5 (rcon 5)).2
    x6 := (alzette s.x6 s.y6 (rcon 6)).1, y6 := (alzette s.x6 s.y6 (rcon 6)).2
    x7 := (alzette s.x7 s.y7 (rcon 7)).1, y7 := (alzette s.x7 s.y7 (rcon 7)).2 }

/-- The linear diffusion layer of `sparkle.rs` for `nb = 8` branches
(`b = 4`): two Feistel passes followed by the branch rotation
`(a5, a6, a7, a4, a0, a1, a2, a3)` applied to `x` and `y` alike. -/
def linearLayer (s : SparkleState) : SparkleState :=
  let tx := ell (s.x0 ^^^ s.x1 ^^^ s.x2 ^^^ s.x3)
  let ty := ell (s.y0 ^^^ s.y1 ^^^ s.y2 ^^^ s.y3)
  let y4 := s.y4 ^^^ (tx ^^^ s.y0)
  let y5 := s.y5 ^^^ (tx ^^^ s.y1)
  let y6 := s.y6 ^^^ (tx ^^^ s.y2)
  let y7 := s.y7 ^^^ (tx ^^^ s.y3)
  let x4 := s.x4 ^^^ (ty ^^^ s.x0)
  let x5 := s.x5 ^^^ (ty ^^^ s.x1)
  let x6 := s.x6 ^^^ (ty ^^^ s.x2)
  let x7 := s.x7 ^^^ (ty ^^^ s.x3)
  { x0 := x5, x1 := x6, x2 := x7, x3 := x4
    x4 := s.x0, x5 := s.x1, x6 := s.x2, x7 := s.x3
    y0 := y5, y1 := y6, y2 := y7, y3 := y4
    y4 := s.y0, y5 := s.y1, y6 := s.y2, y7 := s.y3 }

/-- One step of `sparkle_generic` with step index `i`. -/
def sparkleStep (s : SparkleState) (i : Nat) : SparkleState :=
  linearLayer (alzetteAll (arcStep s i))

/-- Run steps `i, i+1, ..., i+n-1`. -/
def sparkleFrom (s : SparkleState) (i n : Nat) : SparkleState :=
  match n with
  | 0 => s
  | n + 1 => sparkleFrom (sparkleStep s i) (i + 1) n

/-- `sparkle_512(state, steps)` on the split representation. -/
def sparkle512 (s : SparkleState) (steps : Nat) : SparkleState :=
  sparkleFrom s 0 steps

/-! ## Schwaemm256-256 v2 construction (`schwaemm_v2.rs`) -/

/-- Domain-separation constant `CONST_A0 = (0 ^ 16) << 24`. -/
def constA0 : Nat := 0x10000000

/-- Domain-separation constant `CONST_A1 = (1 ^ 16) << 24`. -/
def constA1 : Nat := 0x11000000

/-- Domain-separation constant `CONST_M2 = (2 ^ 16) << 24`. -/
def constM2 : Nat := 0x12000000

/-- Domain-separation constant `CONST_M3 = (3 ^ 16) << 24`. -/
def constM3 : Nat := 0x13000000

/-- Zero-pad a block to `RATE_BYTES = 32` bytes, placing the `0x80` marker
directly after the data when the block is shorter than 32 bytes. -/
def padBlock (input : List Nat) : List Nat :=
  if input.length < 32 then input ++ 0x80 :: List.replicate (31 - input.length) 0 else input

/-- Word `i` of the padded input block (`inbuf[i]` in the source). -/
def blockWord (input : List Nat) (i : Nat) : Nat :=
  (bytesToWordsLE (padBlock input)).getD i 0

/-- Word `i` of an unpadded byte list, zero-filled (`bytes_to_words` into a
zeroed buffer, as in `schwaemm.rs`). -/
def leWord (bs : List Nat) (i : Nat) : Nat := (bytesToWordsLE bs).getD i 0

/-- The Feistel swap of the rate part (`Rho1 part 1`):
`x[i] = x[i+2]; x[i+2] ^= old x[i]` for `i < 2`, likewise for `y`. -/
def feistelSwap (s : SparkleState) : SparkleState :=
  { s with
    x0 := s.x2, x1 := s.x3, x2 := s.x2 ^^^ s.x0, x3 := s.x3 ^^^ s.x1
    y0 := s.y2, y1 := s.y3, y2 := s.y2 ^^^ s.y0, y3 := s.y3 ^^^ s.y1 }

/-- XOR a block (given as its word function `w`) into the rate part
(`Rho1 part 2`). -/
def xorRate (s : SparkleState) (w : Nat → Nat) : SparkleState :=
  { s with
    x0 := s.x0 ^^^ w 0, y0 := s.y0 ^^^ w 1
    x1 := s.x1 ^^^ w 2, y1 := s.y1 ^^^ w 3
    x2 := s.x2 ^^^ w 4, y2 := s.y2 ^^^ w 5
    x3 := s.x3 ^^^ w 6, y3 := s.y3 ^^^ w 7 }

/-- Rate whitening: XOR each capacity branch into the matching rate branch. -/
def whiten (s : SparkleState) : SparkleState :=
  { s with
    x0 := s.x0 ^^^ s.x4, y0 := s.y0 ^^^ s.y4
    x1 := s.x1 ^^^ s.x5, y1 := s.y1 ^^^ s.y5
    x2 := s.x2 ^^^ s.x6, y2 := s.y2 ^^^ s.y6
    x3 := s.x3 ^^^ s.x7, y3 := s.y3 ^^^ s.y7 }

/-- `rho_whi_aut`: absorb an (at most 32-byte) block for authentication. -/
def rho_whi_aut (s : SparkleState) (input : List Nat) : SparkleState :=
  whiten (xorRate (feistelSwap s) (blockWord input))

/-- `Rho2` output words: `outbuf[2i] = inbuf[2i] ^ x[i]`,
`outbuf[2i+1] = inbuf[2i+1] ^ y[i]` (also `Rho2'` of decryption). -/
def rho2out (s : SparkleState) (input : List Nat) : List Nat :=
  [blockWord input 0 ^^^ s.x0, blockWord input 1 ^^^ s.y0,
   blockWord input 2 ^^^ s.x1, blockWord input 3 ^^^ s.y1,
   blockWord input 4 ^^^ s.x2, blockWord input 5 ^^^ s.y2,
   blockWord input 6 ^^^ s.x3, blockWord input 7 ^^^ s.y3]

/-- `rho_whi_enc`: returns the updated state and the ciphertext bytes. -/
def rho_whi_enc (s : SparkleState) (input : List Nat) : SparkleState × List Nat :=
  (whiten (xorRate (feistelSwap s) (blockWord input)),
   wordsToBytesLE (rho2out s input) input.length)

/-- Rate word `j` of the original state in interleaved order
(`statebuf` of `rho_whi_dec`). -/
def rateWord (s : SparkleState) : Nat → Nat
  | 0 => s.x0
  | 1 => s.y0
  | 2 => s.x1
  | 3 => s.y1
  | 4 => s.x2
  | 5 => s.y2
  | 6 => s.x3
  | 7 => s.y3
  | _ => 0

/-- Re-pad the recovered plaintext of a short block: keep its first `len`
bytes, then `0x80`, then zeros (the `outbuf_bytes` surgery of
`rho_whi_dec`). -/
def decRepad (len : Nat) (ob : List Nat) : List Nat :=
  ob.take len ++ 0x80 :: List.replicate (31 - len) 0

/-- `rho_whi_dec`: returns the updated state and the plaintext bytes.  A
short block re-pads the recovered plaintext and XORs it into the swapped
rate; a full 32-byte block instead XORs `original rate XOR ciphertext`. -/
def rho_whi_dec (s : SparkleState) (input : List Nat) : SparkleState × List Nat :=
  let t := feistelSwap s
  let u :=
    if input.length < 32 then
      xorRate t (fun i => (bytesToWordsLE (decRepad input.length (wordsBytes (rho2out s input)))).getD i 0)
    else
      xorRate t (fun i => rateWord s i ^^^ blockWord input i)
  (whiten u, wordsToBytesLE (rho2out s input) input.length)

/-- `initialize` before the permutation: nonce words into the rate branches,
key words into the capacity branches (little-endian packing). -/
def loadState (key nonce : List Nat) : SparkleState :=
  { x0 := leWord nonce 0, y0 := leWord nonce 1
    x1 := leWord nonce 2, y1 := leWord nonce 3
    x2 := leWord nonce 4, y2 := leWord nonce 5
    x3 := leWord nonce 6, y3 := leWord nonce 7
    x4 := leWord key 0, y4 := leWord key 1
    x5 := leWord key 2, y5 := leWord key 3
    x6 := leWord key 4, y6 := leWord key 5
    x7 := leWord key 6, y7 := leWord key 7 }

/-- `initialize`: load nonce and key, then permute with BIG (12) steps. -/
def initState (key nonce : List Nat) : SparkleState :=
  sparkle512 (loadState key nonce) 12

/-- XOR a domain-separation constant into `y[7]`. -/
def addConst (s : SparkleState) (c : Nat) : SparkleState :=
  { s with y7 := s.y7 ^^^ c }

/-- The `process_assoc_data` block loop (entered only for nonempty AAD):
while more than 32 bytes remain, absorb a full block and permute SLIM;
the final block gets `A0`/`A1` into `y[7]`, `rho_whi_aut`, and a BIG
permutation. -/
def processAADLoop (s : SparkleState) (aad : List Nat) : SparkleState :=
  if _h : aad.length > 32 then
    processAADLoop (sparkle512 (rho_whi_aut s (aad.take 32)) 8) (aad.drop 32)
  else
    sparkle512 (rho_whi_aut (addConst s (if aad.length < 32 then constA0 else constA1)) aad) 12
termination_by aad.length
decreasing_by simp only [List.length_drop]; omega

/-- `process_assoc_data`: skipped entirely when the AAD is empty. -/
def process_assoc_data (s : SparkleState) (aad : List Nat) : SparkleState :=
  if aad = [] then s else processAADLoop s aad

/-- The `process_plaintext` block loop (entered only for nonempty data). -/
def processPTLoop (s : SparkleState) (pt : List Nat) : SparkleState × List Nat :=
  if _h : pt.length > 32 then
    let r1 := rho_whi_enc s (pt.take 32)
    let r2 := processPTLoop (sparkle512 r1.1 8) (pt.drop 32)
    (r2.1, r1.2 ++ r2.2)
  else
    let c := if pt.length < 32 then constM2 else constM3
    let r1 := rho_whi_enc (addConst s c) pt
    (sparkle512 r1.1 12, r1.2)
termination_by pt.length
decreasing_by simp only [List.length_drop]; omega

/-- `process_plaintext`: returns `(state, ciphertext)`; skipped entirely
when the plaintext is empty. -/
def process_plaintext (s : SparkleState) (pt : List Nat) : SparkleState × List Nat :=
  if pt = [] then (s, []) else processPTLoop s pt

/-- The `process_ciphertext` block loop (entered only for nonempty data). -/
def processCTLoop (s : SparkleState) (ct : List Nat) : SparkleState × List Nat :=
  if _h : ct.length > 32 then
    let r1 := rho_whi_dec s (ct.take 32)
    let r2 := processCTLoop (sparkle512 r1.1 8) (ct.drop 32)
    (r2.1, r1.2 ++ r2.2)
  else
    let c := if ct.length < 32 then constM2 else constM3
    let r1 := rho_whi_dec (addConst s c) ct
    (sparkle512 r1.1 12, r1.2)
termination_by ct.length
decreasing_by simp only [List.length_drop]; omega

/-- `process_ciphertext`: returns `(state, plaintext)`; skipped entirely
when the ciphertext is empty. -/
def process_ciphertext (s : SparkleState) (ct : List Nat) : SparkleState × List Nat :=
  if ct = [] then (s, []) else processCTLoop s ct

/-- `finalize`: XOR the key words into the capacity branches
(no permutation follows in the source). -/
def finalize (s : SparkleState) (key : List Nat) : SparkleState :=
  { s with
    x4 := s.x4 ^^^ leWord key 0, y4 := s.y4 ^^^ leWord key 1
    x5 := s.x5 ^^^ leWord key 2, y5 := s.y5 ^^^ leWord key 3
    x6 := s.x6 ^^^ leWord key 4, y6 := s.y6 ^^^ leWord key 5
    x7 := s.x7 ^^^ leWord key 6, y7 := s.y7 ^^^ leWord key 7 }

/-- `generate_tag`: the 8 capacity words, little-endian packed, as 32 bytes. -/
def generate_tag (s : SparkleState) : List Nat :=
  wordsToBytesLE [s.x4, s.y4, s.x5, s.y5, s.x6, s.y6, s.x7, s.y7] 32

/-- The XOR-accumulate of `verify_tag`: OR together the XOR of every byte
pair. -/
def tagDiff : List Nat → List Nat → Nat
  | a :: as1, b :: bs1 => (a ^^^ b) ||| tagDiff as1 bs1
  | _, _ => 0

/-- `verify_tag`: the comparison succeeds exactly when the accumulator is
zero. -/
def verify_tag (s : SparkleState) (tag : List Nat) : Bool :=
  tagDiff (generate_tag s) tag == 0

/-- `encrypt` of `schwaemm_v2.rs`: returns `(ciphertext, tag)`. -/
def encrypt (key nonce pt aad : List Nat) : List Nat × List Nat :=
  let s0 := initState key nonce
  let s1 := process_assoc_data s0 aad
  let r := process_plaintext s1 pt
  let s2 := finalize r.1 key
  (r.2, generate_tag s2)

/-- `decrypt` of `schwaemm_v2.rs`: `none` models the
`AuthenticationFailure` error; the computed plaintext is only returned on
tag match. -/
def decrypt (key nonce ct tag aad : List Nat) : Option (List Nat) :=
  let s0 := initState key nonce
  let s1 := process_assoc_data s0 aad
  let r := process_ciphertext s1 ct
  let s2 := finalize r.1 key
  if verify_tag s2 tag then some r.2 else none

/-! ## The earlier flat-array implementation (`schwaemm.rs`)

Its flat `[u32; 16]` state corresponds to `SparkleState` through the same
interleaving `flat[2i] = x i`, `flat[2i+1] = y i` used by the permutation,
so loading the nonce into `state[0..8]` and the key into `state[8..16]`
coincides with `loadState`. -/

namespace Old

/-- `CONST_A0` of `schwaemm.rs`. -/
def constA0 : Nat := 0x00000000

/-- `CONST_A1` of `schwaemm.rs`. -/
def constA1 : Nat := 0x01000000

/-- `CONST_M2` of `schwaemm.rs`. -/
def constM2 : Nat := 0x02000000

/-- `CONST_M3` of `schwaemm.rs`. -/
def constM3 : Nat := 0x03000000

/-- One AAD chunk of the old implementation: XOR the zero-filled chunk
words into `state[0..8]`, add the domain constants to `state[0]` and
`state[1]`, then permute SLIM. -/
def aadChunk (s : SparkleState) (chunk : List Nat) : SparkleState :=
  let t := xorRate s (leWord chunk)
  let u :=
    if chunk.length < 32 then
      { t with x0 := t.x0 ^^^ (constA0 ||| (1 <<< 24)),
               y0 := t.y0 ^^^ ((chunk.length <<< 24) % U32) }
    else
      { t with x0 := t.x0 ^^^ constA1 }
  sparkle512 u 8

/-- The `aad.chunks(RATE_BYTES)` loop of the old implementation. -/
def absorbAAD (s : SparkleState) (aad : List Nat) : SparkleState :=
  if h : aad = [] then s
  else absorbAAD (aadChunk s (aad.take 32)) (aad.drop 32)
termination_by aad.length
decreasing_by
  simp only [List.length_drop]
  have := List.length_pos.mpr h
  omega

/-- One plaintext chunk of the old implementation: emit
`state XOR plaintext` as ciphertext, XOR the plaintext words into the
state, add the domain constants, then permute BIG. -/
def ptChunk (s : SparkleState) (chunk : List Nat) : SparkleState × List Nat :=
  let ct := wordsToBytesLE
    [s.x0 ^^^ leWord chunk 0, s.y0 ^^^ leWord chunk 1,
     s.x1 ^^^ leWord chunk 2, s.y1 ^^^ leWord chunk 3,
     s.x2 ^^^ leWord chunk 4, s.y2 ^^^ leWord chunk 5,
     s.x3 ^^^ leWord chunk 6, s.y3 ^^^ leWord chunk 7] chunk.length
  let t := xorRate s (leWord chunk)
  let u :=
    if chunk.length < 32 then
      { t with x0 := t.x0 ^^^ (constM2 ||| (1 <<< 24)),
               y0 := t.y0 ^^^ ((chunk.length <<< 24) % U32) }
    else
      { t with x0 := t.x0 ^^^ constM3 }
  (sparkle512 u 12, ct)

/-- The `plaintext.chunks(RATE_BYTES)` loop of the old implementation. -/
def encPT (s : SparkleState) (pt : List Nat) : SparkleState × List Nat :=
  if h : pt = [] then (s, [])
  else
    let r1 := ptChunk s (pt.take 32)
    let r2 := encPT r1.1 (pt.drop 32)
    (r2.1, r1.2 ++ r2.2)
termination_by pt.length
decreasing_by
  simp only [List.length_drop]
  have := List.length_pos.mpr h
  omega

/-- Tag extraction of the old implementation: the RATE words
`state[0..8]`, not the capacity. -/
def tagOld (s : SparkleState) : List Nat :=
  wordsToBytesLE [s.x0, s.y0, s.x1, s.y1, s.x2, s.y2, s.x3, s.y3] 32

/-- `encrypt` of `schwaemm.rs`: no initial permutation, flat-array rho,
an extra BIG permutation after the key XOR, tag from the rate. -/
def encryptOld (key nonce pt aad : List Nat) : List Nat × List Nat :=
  let s0 := loadState key nonce
  let s1 := if aad = [] then s0 else absorbAAD s0 aad
  let r := if pt = [] then (s1, []) else encPT s1 pt
  let s2 := sparkle512 (finalize r.1 key) 12
  (r.2, tagOld s2)

end Old

/-! ## Definitions written from the specification text, for comparison -/

/-- Modelled from the spec: one ARX round
`x += rotr(y, r1); y ^= rotr(x, r2); x ^= c` (claim C7's round shape). -/
def arxRound (r1 r2 : Nat) (p : Nat × Nat) (c : Nat) : Nat × Nat :=
  let x := wadd p.1 (rotr p.2 r1)
  let y := p.2 ^^^ rotr x r2
  (x ^^^ c, y)

/-- Modelled from the spec (claim C2): what executing the ProcessData phase
once on an empty final block would do — XOR `M2` into `y[7]`, apply
`rho_whi_enc` to the empty block, permute BIG. -/
def processDataEmptyClaim (s : SparkleState) : SparkleState :=
  sparkle512 (rho_whi_enc (addConst s constM2) []).1 12

/-- Modelled from the spec (claim C3): a Finalize step that XORs the key
into the capacity and then permutes with BIG steps. -/
def finalizeClaim (s : SparkleState) (key : List Nat) : SparkleState :=
  sparkle512 (finalize s key) 12

/-! ## Concrete values used by witnesses and counterexamples -/

/-- The KAT key and nonce: bytes `0x00 .. 0x1F`. -/
def katKey : List Nat := List.range 32

/-- The official tag for empty plaintext and empty AAD under `katKey`. -/
def katTag : List Nat :=
  [0x1E, 0x41, 0xC3, 0x90, 0x49, 0x50, 0x10, 0x61,
   0xA4, 0x80, 0x34, 0x1D, 0xC8, 0x55, 0x1F, 0x3C,
   0xCE, 0x17, 0x19, 0x00, 0xEB, 0x8F, 0x90, 0xBA,
   0x5C, 0x54, 0xB2, 0xA7, 0xCC, 0x2B, 0xFD, 0xF2]

/-- A concrete state used by counterexamples and witnesses. -/
def sampleState : SparkleState :=
  { x0 := 0, x1 := 1, x2 := 2, x3 := 3, x4 := 4, x5 := 5, x6 := 6, x7 := 7
    y0 := 8, y1 := 9, y2 := 10, y3 := 11, y4 := 12, y5 := 13, y6 := 14, y7 := 15 }

/-- 32 zero bytes. -/
def zeros32 : List Nat := List.replicate 32 0

/-! ## Views of the state used in statements -/

/-- The four capacity branches (never written by the rho functions). -/
def capacity (s : SparkleState) : List Nat :=
  [s.x4, s.x5, s.x6, s.x7, s.y4, s.y5, s.y6, s.y7]

/-- The rate words in interleaved (flat) order. -/
def rateList (s : SparkleState) : List Nat :=
  [s.x0, s.y0, s.x1, s.y1, s.x2, s.y2, s.x3, s.y3]

/-- All sixteen state words are genuine u32 values. -/
def Bounded (s : SparkleState) : Prop :=
  s.x0 < U32 ∧ s.x1 < U32 ∧ s.x2 < U32 ∧ s.x3 < U32 ∧
  s.x4 < U32 ∧ s.x5 < U32 ∧ s.x6 < U32 ∧ s.x7 < U32 ∧
  s.y0 < U32 ∧ s.y1 < U32 ∧ s.y2 < U32 ∧ s.y3 < U32 ∧
  s.y4 < U32 ∧ s.y5 < U32 ∧ s.y6 < U32 ∧ s.y7 < U32

instance (s : SparkleState) : Decidable (Bounded s) := by
  unfold Bounded; infer_instance

end GitVeil

namespace GitVeil

/-! ## Basic word lemmas -/

theorem rotr_zero (x : Nat) : rotr x 0 = x := by
  simp [rotr, U32, Nat.shiftLeft_eq]

theorem xor_xor_self_left (a b : Nat) : a ^^^ (b ^^^ a) = b := by
  rw [Nat.xor_comm b a, ← Nat.xor_assoc, Nat.xor_self, Nat.zero_xor]

theorem xor_xor_cancel (a b : Nat) : a ^^^ b ^^^ b = a := Nat.xor_cancel_right b a

/-! ## Claim theorems: permutation-level structure -/

/-- C7: the Alzette ARX box is exactly four rounds of the shape
`x += rotr(y, r1); y ^= rotr(x, r2); x ^= c` with rotation pairs
`(31,24)`, `(17,17)`, `(0,31)` and `(24,16)`, in that order. -/
theorem alzette_is_four_arx_rounds (x y c : Nat) :
    alzette x y c =
      arxRound 24 16 (arxRound 0 31 (arxRound 17 17 (arxRound 31 24 (x, y) c) c) c) c := by
  simp [alzette, arxRound, rotr_zero]

/-! ## Claim theorems: frame property of the rho functions -/

/-- C10: for any state and any block of at most 32 bytes, `rho_whi_aut`,
`rho_whi_enc` and `rho_whi_dec` leave the four capacity branches
(`x[4..8]`, `y[4..8]`) bit-for-bit unchanged. -/
theorem rho_capacity_frame (s : SparkleState) (input : List Nat)
    (hlen : input.length <= 32) :
    capacity (rho_whi_aut s input) = capacity s /\
    capacity (rho_whi_enc s input).1 = capacity s /\
    capacity (rho_whi_dec s input).1 = capacity s := by
  refine ⟨rfl, rfl, ?_⟩
  simp only [rho_whi_dec]
  split <;> rfl

/-- Witness for C10 at a concrete state and 3-byte block. -/
theorem rho_capacity_frame_w :
    capacity (rho_whi_aut sampleState [1, 2, 3]) = capacity sampleState /\
    capacity (rho_whi_enc sampleState [1, 2, 3]).1 = capacity sampleState /\
    capacity (rho_whi_dec sampleState [1, 2, 3]).1 = capacity sampleState :=
  rho_capacity_frame sampleState [1, 2, 3] (by decide)

/-! ## Claim theorems: the empty-data ProcessData phase (C2) -/

/-- C2 (counterexample): with empty data, `process_plaintext` and
`process_ciphertext` return the state unchanged with empty output, whereas
the execution the claim describes (XOR `M2` into `y[7]`, apply the rho
function to a zero-length block, permute BIG) would change the state: the
phase IS skipped, contrary to the claim. -/
theorem processdata_empty_cex :
    process_plaintext sampleState [] = (sampleState, []) /\
    process_ciphertext sampleState [] = (sampleState, []) /\
    processDataEmptyClaim sampleState ≠ sampleState :=
  ⟨rfl, rfl, by decide⟩

/-- C2 (amended): for every state, empty plaintext and empty ciphertext
skip the ProcessData phase entirely — the state is returned unchanged and
the output is empty, exactly like the empty-AAD case. -/
theorem processdata_empty_skipped (s : SparkleState) :
    process_plaintext s [] = (s, []) /\ process_ciphertext s [] = (s, []) :=
  ⟨rfl, rfl⟩

/-! ## Claim theorems: Finalize (C3) -/

/-- C3 (counterexample): on the official KAT input the tag produced by
`encrypt` is the one generated directly from the un-permuted `finalize`
output; a Finalize that additionally permuted with BIG steps would give a
different tag. -/
theorem finalize_no_perm_cex :
    (encrypt katKey katKey [] []).2 = generate_tag (finalize (initState katKey katKey) katKey) /\
    generate_tag (finalizeClaim (initState katKey katKey) katKey) ≠ (encrypt katKey katKey [] []).2 :=
  ⟨rfl, by decide⟩

/-- C3 (amended): `finalize` XORs the little-endian key words into the four
capacity branches and nothing else — no permutation separates it from tag
generation: the tag of every `encrypt` call is read directly from the
`finalize` output (the BIG permutation happens before, at the end of the
data-processing phase). -/
theorem finalize_structure (s : SparkleState) (key nonce pt aad : List Nat) :
    finalize s key =
      { s with
        x4 := s.x4 ^^^ leWord key 0, y4 := s.y4 ^^^ leWord key 1
        x5 := s.x5 ^^^ leWord key 2, y5 := s.y5 ^^^ leWord key 3
        x6 := s.x6 ^^^ leWord key 4, y6 := s.y6 ^^^ leWord key 5
        x7 := s.x7 ^^^ leWord key 6, y7 := s.y7 ^^^ leWord key 7 } /\
    (encrypt key nonce pt aad).2 =
      generate_tag (finalize (process_plaintext (process_assoc_data (initState key nonce) aad) pt).1 key) :=
  ⟨rfl, rfl⟩

/-! ## Claim theorems: known-answer test (C4) -/

/-- C4: for key = nonce = bytes `0x00..0x1F`, empty plaintext and empty
AAD, `encrypt` returns the empty ciphertext and exactly the official tag
`1E41C39049501061A480341DC8551F3CCE171900EB8F90BA5C54B2A7CC2BFDF2`. -/
theorem encrypt_kat_empty : encrypt katKey katKey [] [] = ([], katTag) := by
  decide

/-! ## Claim theorems: old and new implementations differ (C9) -/

/-- C9: on the official KAT input the earlier flat-array `encrypt`
(`schwaemm.rs`) and the corrected implementation (`schwaemm_v2.rs`)
disagree, and the earlier one fails the official test vector. -/
theorem old_encrypt_differs :
    Old.encryptOld katKey katKey [] [] ≠ encrypt katKey katKey [] [] /\
    (Old.encryptOld katKey katKey [] []).2 ≠ katTag := by
  exact ⟨by decide, by decide⟩

/-! ## Claim theorems: AAD phase structure (C8) -/

/-- C8: the AAD phase is skipped entirely when the AAD is empty; a final
block (at most 32 bytes) gets `A0` (shorter than 32 bytes) or `A1`
(exactly 32) XORed into `y[7]`, then `rho_whi_aut` and a BIG permutation;
and while more than 32 bytes remain a full block is absorbed via
`rho_whi_aut` followed by a SLIM permutation. -/
theorem aad_phase_structure (s : SparkleState) (aad : List Nat) :
    (aad = [] → process_assoc_data s aad = s) /\
    (aad ≠ [] → aad.length <= 32 →
      process_assoc_data s aad =
        sparkle512 (rho_whi_aut (addConst s (if aad.length < 32 then constA0 else constA1)) aad) 12) /\
    (32 < aad.length →
      process_assoc_data s aad =
        process_assoc_data (sparkle512 (rho_whi_aut s (aad.take 32)) 8) (aad.drop 32)) := by
  refine ⟨?_, ?_, ?_⟩
  · rintro rfl; rfl
  · intro h1 h2
    rw [process_assoc_data, if_neg h1, processAADLoop, dif_neg (by omega)]
  · intro h
    have hne : aad ≠ [] := by
      intro he; rw [he] at h; simp at h
    have hdne : aad.drop 32 ≠ [] := by
      intro he
      have := congrArg List.length he
      simp only [List.length_drop, List.length_nil] at this
      omega
    rw [process_assoc_data, if_neg hne, processAADLoop, dif_pos h,
        process_assoc_data, if_neg hdne]

/-- Witness for C8: all three shapes at concrete inputs. -/
theorem aad_phase_structure_w :
    process_assoc_data sampleState [] = sampleState /\
    process_assoc_data sampleState [5] =
      sparkle512 (rho_whi_aut (addConst sampleState
        (if ([5] : List Nat).length < 32 then constA0 else constA1)) [5]) 12 /\
    process_assoc_data sampleState (List.range 33) =
      process_assoc_data (sparkle512 (rho_whi_aut sampleState ((List.range 33).take 32)) 8)
        ((List.range 33).drop 32) :=
  ⟨(aad_phase_structure sampleState []).1 rfl,
   (aad_phase_structure sampleState [5]).2.1 (by decide) (by decide),
   (aad_phase_structure sampleState (List.range 33)).2.2 (by decide)⟩

/-! ## Byte/word conversion lemmas -/

theorem wordBytes_toWord {b0 b1 b2 b3 : Nat}
    (h0 : b0 < 256) (h1 : b1 < 256) (h2 : b2 < 256) (h3 : b3 < 256) :
    wordBytes (toWord b0 b1 b2 b3) = [b0, b1, b2, b3] := by
  simp only [wordBytes, toWord]
  refine List.cons_eq_cons.mpr ⟨by omega, ?_⟩
  refine List.cons_eq_cons.mpr ⟨by omega, ?_⟩
  refine List.cons_eq_cons.mpr ⟨by omega, ?_⟩
  refine List.cons_eq_cons.mpr ⟨by omega, rfl⟩

theorem toWord_wordBytes {w : Nat} (h : w < U32) :
    toWord (w % 256) (w / 256 % 256) (w / 65536 % 256) (w / 16777216 % 256) = w := by
  simp only [toWord, U32] at *
  omega

theorem toWord_lt {b0 b1 b2 b3 : Nat}
    (h0 : b0 < 256) (h1 : b1 < 256) (h2 : b2 < 256) (h3 : b3 < 256) :
    toWord b0 b1 b2 b3 < U32 := by
  simp only [toWord, U32]; omega

theorem wordsBytes_length (ws : List Nat) : (wordsBytes ws).length = 4 * ws.length := by
  induction ws with
  | nil => rfl
  | cons w ws ih => simp [wordsBytes, wordBytes, ih]; omega

theorem mem_wordsBytes_lt {ws : List Nat} : ∀ b ∈ wordsBytes ws, b < 256 := by
  induction ws with
  | nil => intro b hb; simp [wordsBytes] at hb
  | cons w ws ih =>
    intro b hb
    simp only [wordsBytes, wordBytes, List.mem_append, List.mem_cons, List.not_mem_nil] at hb
    rcases hb with h | h
    · rcases h with h | h | h | h | h
      all_goals first
        | (subst h; exact Nat.mod_lt _ (by norm_num))
        | exact absurd h (by simp)
    · exact ih b h

theorem bytesToWordsLE_length (bs : List Nat) :
    (bytesToWordsLE bs).length = (bs.length + 3) / 4 := by
  induction bs using bytesToWordsLE.induct with
  | case1 b0 b1 b2 b3 rest ih =>
    simp only [bytesToWordsLE, List.length_cons, ih]
    omega
  | case2 => simp [bytesToWordsLE]
  | case3 => simp [bytesToWordsLE]
  | case4 => simp [bytesToWordsLE]
  | case5 => simp [bytesToWordsLE]

theorem mem_bytesToWordsLE_lt (bs : List Nat) :
    (∀ b ∈ bs, b < 256) → ∀ w ∈ bytesToWordsLE bs, w < U32 := by
  induction bs using bytesToWordsLE.induct with
  | case1 b0 b1 b2 b3 rest ih =>
    intro h w hw
    simp only [bytesToWordsLE, List.mem_cons] at hw
    rcases hw with hw | hw
    · subst hw
      exact toWord_lt (h b0 (by simp)) (h b1 (by simp)) (h b2 (by simp)) (h b3 (by simp))
    · exact ih (fun b hb => h b (by simp [hb])) w hw
  | case2 b0 b1 b2 =>
    intro h w hw
    simp only [bytesToWordsLE, List.mem_singleton] at hw
    subst hw
    exact toWord_lt (h b0 (by simp)) (h b1 (by simp)) (h b2 (by simp)) (by norm_num)
  | case3 b0 b1 =>
    intro h w hw
    simp only [bytesToWordsLE, List.mem_singleton] at hw
    subst hw
    exact toWord_lt (h b0 (by simp)) (h b1 (by simp)) (by norm_num) (by norm_num)
  | case4 b0 =>
    intro h w hw
    simp only [bytesToWordsLE, List.mem_singleton] at hw
    rw [hw]
    exact toWord_lt (h b0 (by simp)) (by norm_num) (by norm_num) (by norm_num)
  | case5 =>
    intro h w hw
    simp [bytesToWordsLE] at hw

theorem wordsBytes_bytesToWordsLE (bs : List Nat) :
    (∀ b ∈ bs, b < 256) → 4 ∣ bs.length → wordsBytes (bytesToWordsLE bs) = bs := by
  induction bs using bytesToWordsLE.induct with
  | case1 b0 b1 b2 b3 rest ih =>
    intro h hd
    have hrest : 4 ∣ rest.length := by
      simp only [List.length_cons] at hd
      omega
    simp only [bytesToWordsLE, wordsBytes]
    rw [wordBytes_toWord (h b0 (by simp)) (h b1 (by simp)) (h b2 (by simp)) (h b3 (by simp)),
        ih (fun b hb => h b (by simp [hb])) hrest]
    rfl
  | case2 => intro h hd; exact absurd hd (by simp; omega)
  | case3 => intro h hd; exact absurd hd (by simp; omega)
  | case4 => intro h hd; exact absurd hd (by simp)
  | case5 => intro h hd; rfl

theorem bytesToWordsLE_wordsBytes : ∀ (ws : List Nat), (∀ w ∈ ws, w < U32) →
    bytesToWordsLE (wordsBytes ws) = ws
  | [], _ => rfl
  | w :: ws, h => by
    have ih := bytesToWordsLE_wordsBytes ws (fun v hv => h v (by simp [hv]))
    simp only [wordsBytes, wordBytes, List.cons_append, List.nil_append, bytesToWordsLE]
    rw [toWord_wordBytes (h w (by simp))]
    exact congrArg (List.cons w) ih

theorem xor_shiftRight (a b n : Nat) : (a ^^^ b) >>> n = (a >>> n) ^^^ (b >>> n) := by
  apply Nat.eq_of_testBit_eq
  intro i
  simp [Nat.testBit_shiftRight, Nat.testBit_xor]

theorem xor_mod_two_pow (a b n : Nat) :
    (a ^^^ b) % 2 ^ n = (a % 2 ^ n) ^^^ (b % 2 ^ n) := by
  apply Nat.eq_of_testBit_eq
  intro i
  simp only [Nat.testBit_mod_two_pow, Nat.testBit_xor]
  rcases Decidable.em (i < n) with h | h
  · simp [h]
  · simp [h]

theorem byte_xor (a b k : Nat) :
    (a ^^^ b) / 2 ^ k % 2 ^ 8 = (a / 2 ^ k % 2 ^ 8) ^^^ (b / 2 ^ k % 2 ^ 8) := by
  rw [← Nat.shiftRight_eq_div_pow, ← Nat.shiftRight_eq_div_pow, ← Nat.shiftRight_eq_div_pow,
      xor_shiftRight, xor_mod_two_pow]

theorem wordBytes_xor (a b : Nat) :
    wordBytes (a ^^^ b) = List.zipWith (· ^^^ ·) (wordBytes a) (wordBytes b) := by
  have h0 := byte_xor a b 0
  have h1 := byte_xor a b 8
  have h2 := byte_xor a b 16
  have h3 := byte_xor a b 24
  norm_num at h0 h1 h2 h3
  simp [wordBytes, List.zipWith, h0, h1, h2, h3]

theorem wordsBytes_zipWith_xor : ∀ (ws vs : List Nat), ws.length = vs.length →
    wordsBytes (List.zipWith (· ^^^ ·) ws vs) =
      List.zipWith (· ^^^ ·) (wordsBytes ws) (wordsBytes vs)
  | [], [], _ => rfl
  | [], _ :: _, h => by simp at h
  | _ :: _, [], h => by simp at h
  | w :: ws, v :: vs, h => by
    have ih := wordsBytes_zipWith_xor ws vs (by simpa using h)
    have h0 := byte_xor w v 0
    have h1 := byte_xor w v 8
    have h2 := byte_xor w v 16
    have h3 := byte_xor w v 24
    norm_num at h0 h1 h2 h3
    simp [wordsBytes, wordBytes, List.zipWith, ih, h0, h1, h2, h3]

theorem zipWith_xor_cancel : ∀ (xs ys : List Nat), xs.length <= ys.length →
    List.zipWith (· ^^^ ·) (List.zipWith (· ^^^ ·) xs ys) ys = xs
  | [], _, _ => by simp
  | _ :: _, [], h => by simp at h
  | x :: xs, y :: ys, h => by
    simp only [List.zipWith]
    rw [Nat.xor_cancel_right, zipWith_xor_cancel xs ys (by simpa using h)]

/-! ## padBlock lemmas -/

theorem padBlock_length {input : List Nat} (h : input.length <= 32) :
    (padBlock input).length = 32 := by
  unfold padBlock
  split
  · simp only [List.length_append, List.length_cons, List.length_replicate]
    omega
  · omega

theorem padBlock_bytes {input : List Nat} (h : ∀ b ∈ input, b < 256) :
    ∀ b ∈ padBlock input, b < 256 := by
  intro b hb
  unfold padBlock at hb
  split at hb
  · simp only [List.mem_append, List.mem_cons] at hb
    rcases hb with hb | hb | hb
    · exact h b hb
    · omega
    · have := List.eq_of_mem_replicate hb
      omega
  · exact h b hb

theorem padBlock_take {input : List Nat} (h : input.length <= 32) :
    (padBlock input).take input.length = input := by
  unfold padBlock
  split
  · exact List.take_left input _
  · exact List.take_length input

/-! ## Destructuring a length-8 word list -/

theorem list_eight (l : List Nat) (h : l.length = 8) :
    l = [l.getD 0 0, l.getD 1 0, l.getD 2 0, l.getD 3 0,
         l.getD 4 0, l.getD 5 0, l.getD 6 0, l.getD 7 0] := by
  apply List.ext_getElem
  · simp [h]
  · intro i h1 h2
    rw [h] at h1
    interval_cases i <;> simp [List.getD_eq_getElem, h]

theorem rho2out_zip (s : SparkleState) (input : List Nat) (h : input.length <= 32) :
    rho2out s input =
      List.zipWith (· ^^^ ·) (bytesToWordsLE (padBlock input)) (rateList s) := by
  have hlen : (bytesToWordsLE (padBlock input)).length = 8 := by
    rw [bytesToWordsLE_length, padBlock_length h]
  simp only [rho2out, blockWord, rateList]
  conv_rhs => rw [list_eight _ hlen]
  simp [List.zipWith]

/-! ## Length lemmas -/

theorem rho2out_length (s : SparkleState) (input : List Nat) :
    (rho2out s input).length = 8 := by
  simp [rho2out]

theorem rho_whi_enc_len (s : SparkleState) (input : List Nat) :
    (rho_whi_enc s input).2.length = min input.length 32 := by
  simp only [rho_whi_enc, wordsToBytesLE, List.length_take, wordsBytes_length, rho2out_length]

theorem rho_whi_dec_len (s : SparkleState) (input : List Nat) :
    (rho_whi_dec s input).2.length = min input.length 32 := by
  simp only [rho_whi_dec, wordsToBytesLE, List.length_take, wordsBytes_length, rho2out_length]

theorem processPTLoop_len : ∀ (n : Nat) (pt : List Nat) (s : SparkleState), pt.length <= n →
    (processPTLoop s pt).2.length = pt.length := by
  intro n
  induction n with
  | zero =>
    intro pt s h
    rw [processPTLoop, dif_neg (by omega)]
    simp only [rho_whi_enc_len]
    omega
  | succ n ih =>
    intro pt s h
    by_cases hgt : pt.length > 32
    · rw [processPTLoop, dif_pos hgt]
      simp only [List.length_append, rho_whi_enc_len,
        ih (pt.drop 32) _ (by simp only [List.length_drop]; omega)]
      simp only [List.length_take, List.length_drop]
      omega
    · rw [processPTLoop, dif_neg hgt]
      simp only [rho_whi_enc_len]
      omega

theorem processCTLoop_len : ∀ (n : Nat) (ct : List Nat) (s : SparkleState), ct.length <= n →
    (processCTLoop s ct).2.length = ct.length := by
  intro n
  induction n with
  | zero =>
    intro ct s h
    rw [processCTLoop, dif_neg (by omega)]
    simp only [rho_whi_dec_len]
    omega
  | succ n ih =>
    intro ct s h
    by_cases hgt : ct.length > 32
    · rw [processCTLoop, dif_pos hgt]
      simp only [List.length_append, rho_whi_dec_len,
        ih (ct.drop 32) _ (by simp only [List.length_drop]; omega)]
      simp only [List.length_take, List.length_drop]
      omega
    · rw [processCTLoop, dif_neg hgt]
      simp only [rho_whi_dec_len]
      omega

theorem process_plaintext_len (s : SparkleState) (pt : List Nat) :
    (process_plaintext s pt).2.length = pt.length := by
  unfold process_plaintext
  split
  · subst pt; rfl
  · exact processPTLoop_len pt.length pt s le_rfl

theorem process_ciphertext_len (s : SparkleState) (ct : List Nat) :
    (process_ciphertext s ct).2.length = ct.length := by
  unfold process_ciphertext
  split
  · subst ct; rfl
  · exact processCTLoop_len ct.length ct s le_rfl

theorem generate_tag_len (s : SparkleState) : (generate_tag s).length = 32 := by
  simp [generate_tag, wordsToBytesLE, List.length_take, wordsBytes_length]

/-! ## Claim theorems: length preservation (C6) -/

/-- C6: the ciphertext of `encrypt` has exactly the plaintext length, the
tag is exactly 32 bytes, and a successful `decrypt` returns a plaintext of
exactly the ciphertext length. -/
theorem length_preservation (key nonce pt aad ct tag pt2 : List Nat) :
    (encrypt key nonce pt aad).1.length = pt.length /\
    (encrypt key nonce pt aad).2.length = 32 /\
    (decrypt key nonce ct tag aad = some pt2 → pt2.length = ct.length) := by
  refine ⟨process_plaintext_len _ _, generate_tag_len _, ?_⟩
  intro h
  simp only [decrypt] at h
  split at h
  · rw [← Option.some_inj.mp h]
    exact process_ciphertext_len _ _
  · exact absurd h (by simp)

/-- C6 witness: a 1-byte encryption and the successful empty-ciphertext
KAT decryption. -/
theorem length_preservation_w :
    (encrypt katKey katKey [3] []).1.length = ([3] : List Nat).length /\
    (encrypt katKey katKey [3] []).2.length = 32 /\
    ([] : List Nat).length = ([] : List Nat).length :=
  ⟨(length_preservation katKey katKey [3] [] [] katTag []).1,
   (length_preservation katKey katKey [3] [] [] katTag []).2.1,
   (length_preservation katKey katKey [3] [] [] katTag []).2.2 (by decide)⟩

/-! ## Tag comparison lemmas -/

theorem or_eq_zero_iff_parts {a b : Nat} : a ||| b = 0 ↔ a = 0 ∧ b = 0 := by
  constructor
  · intro h
    constructor
    · apply Nat.eq_of_testBit_eq
      intro i
      have hh := congrArg (fun t => Nat.testBit t i) h
      simp only [Nat.testBit_or, Nat.zero_testBit] at hh
      simp only [Nat.zero_testBit]
      exact (Bool.or_eq_false_iff.mp hh).1
    · apply Nat.eq_of_testBit_eq
      intro i
      have hh := congrArg (fun t => Nat.testBit t i) h
      simp only [Nat.testBit_or, Nat.zero_testBit] at hh
      simp only [Nat.zero_testBit]
      exact (Bool.or_eq_false_iff.mp hh).2
  · rintro ⟨rfl, rfl⟩
    rfl

theorem tagDiff_self : ∀ (l : List Nat), tagDiff l l = 0
  | [] => rfl
  | a :: l => by simp [tagDiff, tagDiff_self l]

theorem tagDiff_eq_zero_iff : ∀ (a b : List Nat), a.length = b.length →
    (tagDiff a b = 0 ↔ a = b)
  | [], [], _ => by simp [tagDiff]
  | [], _ :: _, h => by simp at h
  | _ :: _, [], h => by simp at h
  | x :: xs, y :: ys, h => by
    have ih := tagDiff_eq_zero_iff xs ys (by simpa using h)
    simp only [tagDiff, or_eq_zero_iff_parts, Nat.xor_eq_zero, ih, List.cons.injEq]

theorem verify_tag_iff (s : SparkleState) (tag : List Nat) (h : tag.length = 32) :
    verify_tag s tag = true ↔ generate_tag s = tag := by
  unfold verify_tag
  rw [beq_iff_eq]
  exact tagDiff_eq_zero_iff _ _ (by rw [generate_tag_len, h])

/-! ## Claim theorems: authentication gate of decrypt (C5) -/

/-- C5: `decrypt` returns the recovered plaintext exactly when the tag
recomputed from the post-finalize capacity equals the supplied 32-byte tag
(the comparison being the XOR-accumulate of `verify_tag`); on any mismatch
it returns the authentication failure and the plaintext is not returned. -/
theorem decrypt_auth_iff (key nonce ct tag aad : List Nat) (ht : tag.length = 32) :
    (decrypt key nonce ct tag aad =
        some (process_ciphertext (process_assoc_data (initState key nonce) aad) ct).2 ↔
      generate_tag (finalize (process_ciphertext (process_assoc_data (initState key nonce) aad) ct).1 key) = tag) /\
    (generate_tag (finalize (process_ciphertext (process_assoc_data (initState key nonce) aad) ct).1 key) ≠ tag →
      decrypt key nonce ct tag aad = none) := by
  have hv := verify_tag_iff
    (finalize (process_ciphertext (process_assoc_data (initState key nonce) aad) ct).1 key) tag ht
  constructor
  · constructor
    · intro h
      by_cases hb : verify_tag
          (finalize (process_ciphertext (process_assoc_data (initState key nonce) aad) ct).1 key) tag = true
      · exact hv.mp hb
      · simp only [decrypt, if_neg hb] at h
        exact absurd h (by simp)
    · intro h
      simp only [decrypt, if_pos (hv.mpr h)]
  · intro h
    have hb : ¬ verify_tag
        (finalize (process_ciphertext (process_assoc_data (initState key nonce) aad) ct).1 key) tag = true :=
      fun hb => h (hv.mp hb)
    simp only [decrypt, if_neg hb]

/-- C5 witness: the KAT decryption with the correct tag. -/
theorem decrypt_auth_iff_w :
    (decrypt katKey katKey [] katTag [] =
        some (process_ciphertext (process_assoc_data (initState katKey katKey) []) []).2 ↔
      generate_tag (finalize (process_ciphertext (process_assoc_data (initState katKey katKey) []) []).1 katKey) = katTag) /\
    (generate_tag (finalize (process_ciphertext (process_assoc_data (initState katKey katKey) []) []).1 katKey) ≠ katTag →
      decrypt katKey katKey [] katTag [] = none) :=
  decrypt_auth_iff katKey katKey [] katTag [] (by decide)

/-! ## Boundedness of the state words -/

theorem u32_eq : U32 = 2 ^ 32 := by norm_num [U32]

theorem xor_lt_u32 {a b : Nat} (ha : a < U32) (hb : b < U32) : a ^^^ b < U32 := by
  rw [u32_eq] at *
  exact Nat.xor_lt_two_pow ha hb

theorem or_lt_u32 {a b : Nat} (ha : a < U32) (hb : b < U32) : a ||| b < U32 := by
  rw [u32_eq] at *
  exact Nat.or_lt_two_pow ha hb

theorem mod_lt_u32 (a : Nat) : a % U32 < U32 := Nat.mod_lt _ (by norm_num [U32])

theorem wadd_lt (a b : Nat) : wadd a b < U32 := mod_lt_u32 _

theorem rotr_lt {x : Nat} (hx : x < U32) (n : Nat) : rotr x n < U32 := by
  unfold rotr
  apply or_lt_u32
  · have h1 : x >>> n <= x := by
      rw [Nat.shiftRight_eq_div_pow]
      exact Nat.div_le_self _ _
    omega
  · exact mod_lt_u32 _

theorem ell_lt (x : Nat) (hx : x < U32) : ell x < U32 :=
  rotr_lt (xor_lt_u32 hx (mod_lt_u32 _)) _

theorem alzette_lt {x y c : Nat} (hx : x < U32) (hy : y < U32) (hc : c < U32) :
    (alzette x y c).1 < U32 ∧ (alzette x y c).2 < U32 := by
  simp only [alzette]
  constructor <;>
    (repeat first
      | exact hc
      | exact hy
      | apply xor_lt_u32
      | apply rotr_lt
      | apply wadd_lt)

theorem getD_lt_of_forall {l : List Nat} {B d : Nat} (hl : ∀ x ∈ l, x < B) (hd : d < B)
    (i : Nat) : l.getD i d < B := by
  induction l generalizing i with
  | nil => simpa [List.getD] using hd
  | cons a l ih =>
    cases i with
    | zero => exact hl a (by simp)
    | succ i => simpa using ih (fun x hx => hl x (by simp [hx])) i

theorem rcon_lt (i : Nat) : rcon i < U32 := by
  unfold rcon
  exact getD_lt_of_forall (by decide) (by norm_num [U32]) _

theorem leWord_lt {bs : List Nat} (h : ∀ b ∈ bs, b < 256) (i : Nat) : leWord bs i < U32 :=
  getD_lt_of_forall (mem_bytesToWordsLE_lt bs h) (by norm_num [U32]) i

theorem blockWord_lt {input : List Nat} (h : ∀ b ∈ input, b < 256) (i : Nat) :
    blockWord input i < U32 :=
  getD_lt_of_forall (mem_bytesToWordsLE_lt _ (padBlock_bytes h)) (by norm_num [U32]) i

theorem bounded_arcStep {s : SparkleState} (hs : Bounded s) (i : Nat) :
    Bounded (arcStep s i) := by
  obtain ⟨hx0, hx1, hx2, hx3, hx4, hx5, hx6, hx7, hy0, hy1, hy2, hy3, hy4, hy5, hy6, hy7⟩ := hs
  exact ⟨hx0, hx1, hx2, hx3, hx4, hx5, hx6, hx7,
    xor_lt_u32 hy0 (rcon_lt i), xor_lt_u32 hy1 (mod_lt_u32 i),
    hy2, hy3, hy4, hy5, hy6, hy7⟩

theorem bounded_alzetteAll {s : SparkleState} (hs : Bounded s) : Bounded (alzetteAll s) := by
  obtain ⟨hx0, hx1, hx2, hx3, hx4, hx5, hx6, hx7, hy0, hy1, hy2, hy3, hy4, hy5, hy6, hy7⟩ := hs
  exact ⟨(alzette_lt hx0 hy0 (rcon_lt 0)).1, (alzette_lt hx1 hy1 (rcon_lt 1)).1,
    (alzette_lt hx2 hy2 (rcon_lt 2)).1, (alzette_lt hx3 hy3 (rcon_lt 3)).1,
    (alzette_lt hx4 hy4 (rcon_lt 4)).1, (alzette_lt hx5 hy5 (rcon_lt 5)).1,
    (alzette_lt hx6 hy6 (rcon_lt 6)).1, (alzette_lt hx7 hy7 (rcon_lt 7)).1,
    (alzette_lt hx0 hy0 (rcon_lt 0)).2, (alzette_lt hx1 hy1 (rcon_lt 1)).2,
    (alzette_lt hx2 hy2 (rcon_lt 2)).2, (alzette_lt hx3 hy3 (rcon_lt 3)).2,
    (alzette_lt hx4 hy4 (rcon_lt 4)).2, (alzette_lt hx5 hy5 (rcon_lt 5)).2,
    (alzette_lt hx6 hy6 (rcon_lt 6)).2, (alzette_lt hx7 hy7 (rcon_lt 7)).2⟩

theorem bounded_linearLayer {s : SparkleState} (hs : Bounded s) : Bounded (linearLayer s) := by
  obtain ⟨hx0, hx1, hx2, hx3, hx4, hx5, hx6, hx7, hy0, hy1, hy2, hy3, hy4, hy5, hy6, hy7⟩ := hs
  simp only [linearLayer, Bounded]
  refine ⟨?_, ?_, ?_, ?_, ?_, ?_, ?_, ?_, ?_, ?_, ?_, ?_, ?_, ?_, ?_, ?_⟩ <;>
    (repeat first
      | exact hx0 | exact hx1 | exact hx2 | exact hx3
      | exact hx4 | exact hx5 | exact hx6 | exact hx7
      | exact hy0 | exact hy1 | exact hy2 | exact hy3
      | exact hy4 | exact hy5 | exact hy6 | exact hy7
      | apply xor_lt_u32
      | apply ell_lt)

theorem bounded_sparkleStep {s : SparkleState} (hs : Bounded s) (i : Nat) :
    Bounded (sparkleStep s i) :=
  bounded_linearLayer (bounded_alzetteAll (bounded_arcStep hs i))

theorem bounded_sparkleFrom {s : SparkleState} (hs : Bounded s) :
    ∀ (n i : Nat), Bounded (sparkleFrom s i n) := by
  intro n
  induction n generalizing s with
  | zero => intro i; exact hs
  | succ n ih => intro i; exact ih (bounded_sparkleStep hs i) (i + 1)

theorem bounded_sparkle512 {s : SparkleState} (hs : Bounded s) (steps : Nat) :
    Bounded (sparkle512 s steps) :=
  bounded_sparkleFrom hs steps 0

theorem bounded_feistelSwap {s : SparkleState} (hs : Bounded s) : Bounded (feistelSwap s) := by
  obtain ⟨hx0, hx1, hx2, hx3, hx4, hx5, hx6, hx7, hy0, hy1, hy2, hy3, hy4, hy5, hy6, hy7⟩ := hs
  exact ⟨hx2, hx3, xor_lt_u32 hx2 hx0, xor_lt_u32 hx3 hx1, hx4, hx5, hx6, hx7,
    hy2, hy3, xor_lt_u32 hy2 hy0, xor_lt_u32 hy3 hy1, hy4, hy5, hy6, hy7⟩

theorem bounded_xorRate {s : SparkleState} {w : Nat → Nat} (hs : Bounded s)
    (hw : ∀ i, w i < U32) : Bounded (xorRate s w) := by
  obtain ⟨hx0, hx1, hx2, hx3, hx4, hx5, hx6, hx7, hy0, hy1, hy2, hy3, hy4, hy5, hy6, hy7⟩ := hs
  exact ⟨xor_lt_u32 hx0 (hw 0), xor_lt_u32 hx1 (hw 2), xor_lt_u32 hx2 (hw 4),
    xor_lt_u32 hx3 (hw 6), hx4, hx5, hx6, hx7,
    xor_lt_u32 hy0 (hw 1), xor_lt_u32 hy1 (hw 3), xor_lt_u32 hy2 (hw 5),
    xor_lt_u32 hy3 (hw 7), hy4, hy5, hy6, hy7⟩

theorem bounded_whiten {s : SparkleState} (hs : Bounded s) : Bounded (whiten s) := by
  obtain ⟨hx0, hx1, hx2, hx3, hx4, hx5, hx6, hx7, hy0, hy1, hy2, hy3, hy4, hy5, hy6, hy7⟩ := hs
  exact ⟨xor_lt_u32 hx0 hx4, xor_lt_u32 hx1 hx5, xor_lt_u32 hx2 hx6, xor_lt_u32 hx3 hx7,
    hx4, hx5, hx6, hx7,
    xor_lt_u32 hy0 hy4, xor_lt_u32 hy1 hy5, xor_lt_u32 hy2 hy6, xor_lt_u32 hy3 hy7,
    hy4, hy5, hy6, hy7⟩

theorem bounded_addConst {s : SparkleState} {c : Nat} (hs : Bounded s) (hc : c < U32) :
    Bounded (addConst s c) := by
  obtain ⟨hx0, hx1, hx2, hx3, hx4, hx5, hx6, hx7, hy0, hy1, hy2, hy3, hy4, hy5, hy6, hy7⟩ := hs
  exact ⟨hx0, hx1, hx2, hx3, hx4, hx5, hx6, hx7,
    hy0, hy1, hy2, hy3, hy4, hy5, hy6, xor_lt_u32 hy7 hc⟩

theorem rateWord_lt {s : SparkleState} (hs : Bounded s) : ∀ i, rateWord s i < U32 := by
  obtain ⟨hx0, hx1, hx2, hx3, _, _, _, _, hy0, hy1, hy2, hy3, _, _, _, _⟩ := hs
  have h0 : (0 : Nat) < U32 := by norm_num [U32]
  intro i
  match i with
  | 0 => exact hx0
  | 1 => exact hy0
  | 2 => exact hx1
  | 3 => exact hy1
  | 4 => exact hx2
  | 5 => exact hy2
  | 6 => exact hx3
  | 7 => exact hy3
  | n + 8 => exact h0

theorem bounded_rho_whi_aut {s : SparkleState} {input : List Nat} (hs : Bounded s)
    (hin : ∀ b ∈ input, b < 256) : Bounded (rho_whi_aut s input) :=
  bounded_whiten (bounded_xorRate (bounded_feistelSwap hs) (blockWord_lt hin))

theorem bounded_rho_whi_enc {s : SparkleState} {input : List Nat} (hs : Bounded s)
    (hin : ∀ b ∈ input, b < 256) : Bounded (rho_whi_enc s input).1 :=
  bounded_whiten (bounded_xorRate (bounded_feistelSwap hs) (blockWord_lt hin))

theorem decRepad_bytes (len : Nat) (ob : List Nat) (hob : ∀ b ∈ ob, b < 256) :
    ∀ b ∈ decRepad len ob, b < 256 := by
  intro b hb
  unfold decRepad at hb
  simp only [List.mem_append, List.mem_cons] at hb
  rcases hb with hb | hb | hb
  · exact hob b (List.mem_of_mem_take hb)
  · omega
  · have := List.eq_of_mem_replicate hb
    omega

theorem bounded_rho_whi_dec {s : SparkleState} {input : List Nat} (hs : Bounded s)
    (hin : ∀ b ∈ input, b < 256) : Bounded (rho_whi_dec s input).1 := by
  simp only [rho_whi_dec]
  split
  · exact bounded_whiten (bounded_xorRate (bounded_feistelSwap hs)
      (fun i => getD_lt_of_forall
        (mem_bytesToWordsLE_lt _ (decRepad_bytes _ _ mem_wordsBytes_lt))
        (by norm_num [U32]) i))
  · exact bounded_whiten (bounded_xorRate (bounded_feistelSwap hs)
      (fun i => xor_lt_u32 (rateWord_lt hs i) (blockWord_lt hin i)))

theorem bounded_loadState {key nonce : List Nat} (hk : ∀ b ∈ key, b < 256)
    (hn : ∀ b ∈ nonce, b < 256) : Bounded (loadState key nonce) :=
  ⟨leWord_lt hn 0, leWord_lt hn 2, leWord_lt hn 4, leWord_lt hn 6,
   leWord_lt hk 0, leWord_lt hk 2, leWord_lt hk 4, leWord_lt hk 6,
   leWord_lt hn 1, leWord_lt hn 3, leWord_lt hn 5, leWord_lt hn 7,
   leWord_lt hk 1, leWord_lt hk 3, leWord_lt hk 5, leWord_lt hk 7⟩

theorem bounded_initState {key nonce : List Nat} (hk : ∀ b ∈ key, b < 256)
    (hn : ∀ b ∈ nonce, b < 256) : Bounded (initState key nonce) :=
  bounded_sparkle512 (bounded_loadState hk hn) 12

theorem bounded_processAADLoop : ∀ (n : Nat) (aad : List Nat) (s : SparkleState),
    aad.length <= n → Bounded s → (∀ b ∈ aad, b < 256) →
    Bounded (processAADLoop s aad) := by
  intro n
  induction n with
  | zero =>
    intro aad s h hs ha
    rw [processAADLoop, dif_neg (by omega)]
    exact bounded_sparkle512 (bounded_rho_whi_aut
      (bounded_addConst hs (by split <;> norm_num [constA0, constA1, U32])) ha) 12
  | succ n ih =>
    intro aad s h hs ha
    by_cases hgt : aad.length > 32
    · rw [processAADLoop, dif_pos hgt]
      exact ih _ _ (by simp only [List.length_drop]; omega)
        (bounded_sparkle512 (bounded_rho_whi_aut hs
          (fun b hb => ha b (List.mem_of_mem_take hb))) 8)
        (fun b hb => ha b (List.mem_of_mem_drop hb))
    · rw [processAADLoop, dif_neg hgt]
      exact bounded_sparkle512 (bounded_rho_whi_aut
        (bounded_addConst hs (by split <;> norm_num [constA0, constA1, U32])) ha) 12

theorem bounded_process_assoc_data {s : SparkleState} {aad : List Nat} (hs : Bounded s)
    (ha : ∀ b ∈ aad, b < 256) : Bounded (process_assoc_data s aad) := by
  unfold process_assoc_data
  split
  · exact hs
  · exact bounded_processAADLoop aad.length aad s le_rfl hs ha

/-! ## Block-level round trip -/

theorem enc_out_take (s : SparkleState) (pt : List Nat) :
    (rho_whi_enc s pt).2 = (wordsBytes (rho2out s pt)).take pt.length := rfl

theorem dec_out_take (s : SparkleState) (ct : List Nat) :
    (rho_whi_dec s ct).2 = (wordsBytes (rho2out s ct)).take ct.length := rfl

theorem wordsBytes_rho2out (s : SparkleState) (input : List Nat)
    (hlen : input.length <= 32) (hin : ∀ b ∈ input, b < 256) :
    wordsBytes (rho2out s input) =
      List.zipWith (· ^^^ ·) (padBlock input) (wordsBytes (rateList s)) := by
  rw [rho2out_zip s input hlen,
      wordsBytes_zipWith_xor _ _
        (by rw [bytesToWordsLE_length, padBlock_length hlen]; simp [rateList]),
      wordsBytes_bytesToWordsLE _ (padBlock_bytes hin)
        (by rw [padBlock_length hlen]; norm_num)]

theorem enc_out_bytes (s : SparkleState) (pt : List Nat) :
    ∀ b ∈ (rho_whi_enc s pt).2, b < 256 := by
  rw [enc_out_take]
  intro b hb
  exact mem_wordsBytes_lt b (List.mem_of_mem_take hb)

theorem enc_out_eq (s : SparkleState) (pt : List Nat) (hlen : pt.length <= 32)
    (hpt : ∀ b ∈ pt, b < 256) :
    (rho_whi_enc s pt).2 =
      List.zipWith (· ^^^ ·) pt ((wordsBytes (rateList s)).take pt.length) := by
  rw [enc_out_take, wordsBytes_rho2out s pt hlen hpt, List.take_zipWith, padBlock_take hlen]

theorem rho_block_partial (s : SparkleState) (pt : List Nat)
    (hl : pt.length < 32) (hpt : ∀ b ∈ pt, b < 256) :
    rho_whi_dec s (rho_whi_enc s pt).2 = ((rho_whi_enc s pt).1, pt) := by
  set ct := (rho_whi_enc s pt).2 with hct
  have hctlen : ct.length = pt.length := by rw [hct, rho_whi_enc_len]; omega
  have hctb : ∀ b ∈ ct, b < 256 := enc_out_bytes s pt
  have hctf : ct = List.zipWith (· ^^^ ·) pt ((wordsBytes (rateList s)).take pt.length) :=
    enc_out_eq s pt (by omega) hpt
  have hout : (wordsBytes (rho2out s ct)).take ct.length = pt := by
    rw [wordsBytes_rho2out s ct (by omega) hctb, List.take_zipWith,
        padBlock_take (by omega), hctlen, hctf]
    exact zipWith_xor_cancel pt _
      (by rw [List.length_take, wordsBytes_length]; simp [rateList]; omega)
  have hrepad : decRepad ct.length (wordsBytes (rho2out s ct)) = padBlock pt := by
    unfold decRepad
    rw [hout, hctlen]
    unfold padBlock
    rw [if_pos hl]
  have h2 : (rho_whi_dec s ct).2 = pt := by rw [dec_out_take, hout]
  have h1 : (rho_whi_dec s ct).1 = (rho_whi_enc s pt).1 := by
    simp only [rho_whi_dec]
    rw [if_pos (by omega : ct.length < 32), hrepad]
    rfl
  calc rho_whi_dec s ct = ((rho_whi_dec s ct).1, (rho_whi_dec s ct).2) := rfl
    _ = ((rho_whi_enc s pt).1, pt) := by rw [h1, h2]

theorem rho_block_full (s : SparkleState) (pt : List Nat)
    (hl : pt.length = 32) (hpt : ∀ b ∈ pt, b < 256) (hs : Bounded s) :
    rho_whi_dec s (rho_whi_enc s pt).2 = ((rho_whi_enc s pt).1, pt) := by
  set ct := (rho_whi_enc s pt).2 with hct
  have hctlen : ct.length = 32 := by rw [hct, rho_whi_enc_len]; omega
  have hctb : ∀ b ∈ ct, b < 256 := enc_out_bytes s pt
  have hpadct : padBlock ct = ct := by unfold padBlock; rw [if_neg (by omega)]
  have hpadpt : padBlock pt = pt := by unfold padBlock; rw [if_neg (by omega)]
  have hctfull : ct = wordsBytes (rho2out s pt) := by
    have hwl : (wordsBytes (rho2out s pt)).length = 32 := by
      rw [wordsBytes_length, rho2out_length]
    rw [hct, enc_out_take, hl, ← hwl, List.take_length]
  have hbound : ∀ w ∈ rho2out s pt, w < U32 := by
    obtain ⟨hx0, hx1, hx2, hx3, _, _, _, _, hy0, hy1, hy2, hy3, _, _, _, _⟩ := hs
    intro w hw
    simp only [rho2out, List.mem_cons, List.not_mem_nil, or_false] at hw
    rcases hw with h | h | h | h | h | h | h | h <;>
      (subst h; exact xor_lt_u32 (blockWord_lt hpt _) (by assumption))
  have hPWlen : (bytesToWordsLE pt).length = 8 := by
    rw [bytesToWordsLE_length, hl]
  obtain ⟨p0, p1, p2, p3, p4, p5, p6, p7, hp⟩ :
      ∃ p0 p1 p2 p3 p4 p5 p6 p7, bytesToWordsLE pt = [p0, p1, p2, p3, p4, p5, p6, p7] :=
    ⟨_, _, _, _, _, _, _, _, list_eight _ hPWlen⟩
  have hCW : bytesToWordsLE (padBlock ct) =
      List.zipWith (· ^^^ ·) (bytesToWordsLE pt) (rateList s) := by
    rw [hpadct, hctfull, bytesToWordsLE_wordsBytes _ hbound, rho2out_zip s pt (by omega), hpadpt]
  rw [hp] at hCW
  simp only [rateList, List.zipWith] at hCW
  have hw0 : rateWord s 0 ^^^ blockWord ct 0 = blockWord pt 0 := by
    simp only [blockWord, hCW, hpadpt, hp, rateWord, List.getD_cons_zero, List.getD_cons_succ]
    exact xor_xor_self_left _ _
  have hw1 : rateWord s 1 ^^^ blockWord ct 1 = blockWord pt 1 := by
    simp only [blockWord, hCW, hpadpt, hp, rateWord, List.getD_cons_zero, List.getD_cons_succ]
    exact xor_xor_self_left _ _
  have hw2 : rateWord s 2 ^^^ blockWord ct 2 = blockWord pt 2 := by
    simp only [blockWord, hCW, hpadpt, hp, rateWord, List.getD_cons_zero, List.getD_cons_succ]
    exact xor_xor_self_left _ _
  have hw3 : rateWord s 3 ^^^ blockWord ct 3 = blockWord pt 3 := by
    simp only [blockWord, hCW, hpadpt, hp, rateWord, List.getD_cons_zero, List.getD_cons_succ]
    exact xor_xor_self_left _ _
  have hw4 : rateWord s 4 ^^^ blockWord ct 4 = blockWord pt 4 := by
    simp only [blockWord, hCW, hpadpt, hp, rateWord, List.getD_cons_zero, List.getD_cons_succ]
    exact xor_xor_self_left _ _
  have hw5 : rateWord s 5 ^^^ blockWord ct 5 = blockWord pt 5 := by
    simp only [blockWord, hCW, hpadpt, hp, rateWord, List.getD_cons_zero, List.getD_cons_succ]
    exact xor_xor_self_left _ _
  have hw6 : rateWord s 6 ^^^ blockWord ct 6 = blockWord pt 6 := by
    simp only [blockWord, hCW, hpadpt, hp, rateWord, List.getD_cons_zero, List.getD_cons_succ]
    exact xor_xor_self_left _ _
  have hw7 : rateWord s 7 ^^^ blockWord ct 7 = blockWord pt 7 := by
    simp only [blockWord, hCW, hpadpt, hp, rateWord, List.getD_cons_zero, List.getD_cons_succ]
    exact xor_xor_self_left _ _
  have hout : (wordsBytes (rho2out s ct)).take ct.length = pt := by
    rw [wordsBytes_rho2out s ct (by omega) hctb, hpadct,
        List.take_of_length_le (by rw [List.length_zipWith, hctlen, wordsBytes_length]; simp [rateList]),
        hctfull, wordsBytes_rho2out s pt (by omega) hpt, hpadpt]
    exact zipWith_xor_cancel pt _ (by rw [wordsBytes_length]; simp [rateList]; omega)
  have h2 : (rho_whi_dec s ct).2 = pt := by rw [dec_out_take, hout]
  have h1 : (rho_whi_dec s ct).1 = (rho_whi_enc s pt).1 := by
    simp only [rho_whi_dec, rho_whi_enc]
    rw [if_neg (by omega : ¬ ct.length < 32)]
    simp only [xorRate]
    rw [hw0, hw1, hw2, hw3, hw4, hw5, hw6, hw7]
  calc rho_whi_dec s ct = ((rho_whi_dec s ct).1, (rho_whi_dec s ct).2) := rfl
    _ = ((rho_whi_enc s pt).1, pt) := by rw [h1, h2]

theorem rho_block (s : SparkleState) (pt : List Nat) (h32 : pt.length <= 32)
    (hpt : ∀ b ∈ pt, b < 256) (hs : Bounded s) :
    rho_whi_dec s (rho_whi_enc s pt).2 = ((rho_whi_enc s pt).1, pt) := by
  rcases Nat.lt_or_ge pt.length 32 with h | h
  · exact rho_block_partial s pt h hpt
  · exact rho_block_full s pt (by omega) hpt hs

/-! ## Loop-level round trip -/

theorem loop_roundtrip_small (pt : List Nat) (s : SparkleState) (h32 : pt.length <= 32)
    (hs : Bounded s) (hpt : ∀ b ∈ pt, b < 256) :
    processCTLoop s (processPTLoop s pt).2 = ((processPTLoop s pt).1, pt) := by
  rw [processPTLoop, dif_neg (by omega)]
  simp only []
  have hctlen : (rho_whi_enc (addConst s (if pt.length < 32 then constM2 else constM3)) pt).2.length
      = pt.length := by
    rw [rho_whi_enc_len]; omega
  rw [processCTLoop, dif_neg (by omega)]
  simp only [hctlen]
  rw [rho_block (addConst s (if pt.length < 32 then constM2 else constM3)) pt h32 hpt
    (bounded_addConst hs (by split <;> norm_num [constM2, constM3, U32]))]

theorem loop_roundtrip : ∀ (n : Nat) (pt : List Nat) (s : SparkleState), pt.length <= n →
    Bounded s → (∀ b ∈ pt, b < 256) →
    processCTLoop s (processPTLoop s pt).2 = ((processPTLoop s pt).1, pt) := by
  intro n
  induction n with
  | zero =>
    intro pt s hn hs hpt
    exact loop_roundtrip_small pt s (by omega) hs hpt
  | succ n ih =>
    intro pt s hn hs hpt
    by_cases hgt : pt.length > 32
    · rw [processPTLoop, dif_pos hgt]
      simp only []
      have htk : (pt.take 32).length = 32 := by simp [List.length_take]; omega
      have htkb : ∀ b ∈ pt.take 32, b < 256 := fun b hb => hpt b (List.mem_of_mem_take hb)
      have hdrb : ∀ b ∈ pt.drop 32, b < 256 := fun b hb => hpt b (List.mem_of_mem_drop hb)
      have hct1len : (rho_whi_enc s (pt.take 32)).2.length = 32 := by
        rw [rho_whi_enc_len, htk]
        omega
      have hs2 : Bounded (sparkle512 (rho_whi_enc s (pt.take 32)).1 8) :=
        bounded_sparkle512 (bounded_rho_whi_enc hs htkb) 8
      have hrestlen :
          (processPTLoop (sparkle512 (rho_whi_enc s (pt.take 32)).1 8) (pt.drop 32)).2.length
            = (pt.drop 32).length :=
        processPTLoop_len (pt.drop 32).length _ _ le_rfl
      rw [processCTLoop, dif_pos (by
        rw [List.length_append, hct1len, hrestlen]
        simp only [List.length_drop]
        omega)]
      simp only []
      rw [List.take_left' hct1len, List.drop_left' hct1len]
      rw [rho_block s (pt.take 32) (by omega) htkb hs]
      simp only []
      rw [ih (pt.drop 32) _ (by simp only [List.length_drop]; omega) hs2 hdrb]
      simp [List.take_append_drop]
    · exact loop_roundtrip_small pt s (by omega) hs hpt

theorem roundtrip_process (s : SparkleState) (pt : List Nat) (hs : Bounded s)
    (hpt : ∀ b ∈ pt, b < 256) :
    process_ciphertext s (process_plaintext s pt).2 = ((process_plaintext s pt).1, pt) := by
  unfold process_plaintext
  split
  · next h => subst h; rfl
  · next h =>
    unfold process_ciphertext
    rw [if_neg (by
      intro he
      have hlen := congrArg List.length he
      rw [processPTLoop_len pt.length pt s le_rfl] at hlen
      simp only [List.length_nil] at hlen
      exact h (List.eq_nil_of_length_eq_zero hlen))]
    exact loop_roundtrip pt.length pt s le_rfl hs hpt

/-! ## Claim theorems: encrypt/decrypt round trip (C1) -/

/-- C1: for every 32-byte key and nonce and all byte sequences `pt`, `aad`,
decrypting the `(ciphertext, tag)` pair produced by `encrypt` with the same
key, nonce and aad succeeds and returns the original plaintext. -/
theorem schwaemm_roundtrip (key nonce pt aad : List Nat)
    (hkey : key.length = 32) (hnonce : nonce.length = 32)
    (hkb : ∀ b ∈ key, b < 256) (hnb : ∀ b ∈ nonce, b < 256)
    (hpt : ∀ b ∈ pt, b < 256) (haad : ∀ b ∈ aad, b < 256) :
    decrypt key nonce (encrypt key nonce pt aad).1 (encrypt key nonce pt aad).2 aad = some pt := by
  have hs1 : Bounded (process_assoc_data (initState key nonce) aad) :=
    bounded_process_assoc_data (bounded_initState hkb hnb) haad
  have hrt := roundtrip_process _ pt hs1 hpt
  simp only [encrypt, decrypt]
  rw [hrt]
  rw [if_pos ((verify_tag_iff _ _ (generate_tag_len _)).mpr rfl)]

/-- C1 witness: a concrete round trip through a partial block and AAD. -/
theorem schwaemm_roundtrip_w :
    decrypt katKey katKey (encrypt katKey katKey [1, 2] [7]).1
      (encrypt katKey katKey [1, 2] [7]).2 [7] = some [1, 2] :=
  schwaemm_roundtrip katKey katKey [1, 2] [7] (by decide) (by decide)
    (by decide) (by decide) (by decide) (by decide)

end GitVeil
